import Mathlib

/-!
# Verification of the hierarchy visual's data-to-layout pipeline

A shallow embedding of the core pipeline of `src/hierarchy/src/visual.ts`:
row model, children index, filter pipeline (search + three dropdown
filters), collapse-aware visibility, hierarchy construction with a
synthetic root (via the external `d3-hierarchy` `stratify`/`tree`
operators), and the viewport transform state machine.

Conventions used throughout:

* JavaScript strings are `String`; `string | null` is `Option String`.
  JS truthiness of a string (`""` and `null`/`undefined` are falsy) is
  modelled by `truthy`.
* JS `Map`/`Set` objects are modelled by lists or `Finset`s; only their
  membership is ever observed by the translated code.
* The unbounded `while` loops of the source (ancestor walks and
  stack-based closure computations) are modelled with an explicit fuel
  argument that bounds the number of iterations.  The chosen fuel is
  large enough to let the loop run to saturation on every input on
  which the JavaScript loop terminates with the visual's own children
  index (on a cyclic `parentId` chain the JS ancestor walk diverges;
  the model simply stops).
* Node geometry (`x`/`y` positions) is produced by the external
  `d3-hierarchy` `tree` layout and is not modelled; node identity,
  depth, link structure and construction failures are.
-/

/-- One input record, as produced by `parseDataView` in `visual.ts`.
Display-only fields that the modelled logic never reads
(`value`, `sparkline`, `tooltip`, `selectionId`) are omitted. -/
structure NodeRow where
  id : String
  parentId : Option String
  label : String
  dropdown : Option String
deriving Repr, DecidableEq

/-- JS truthiness of a `string | null` value: `null` and `""` are falsy. -/
def truthy : Option String → Bool
  | none => false
  | some s => s ≠ ""

/-- `new Map(rows.map(r => [r.id, r])).get(i)`: on duplicate keys the
later entry wins, hence the search over the reversed list. -/
def mapGet (rows : List NodeRow) (i : String) : Option NodeRow :=
  rows.reverse.find? (fun r => r.id == i)

/-- `buildChildrenMap` of `visual.ts`: parent id → ordered child ids,
skipping rows whose `parentId` is falsy.  The JS `Map<string,string[]>`
is modelled as the lookup function it denotes: the ids pushed for a key
appear in row order. -/
def childrenMapOf (rows : List NodeRow) (pid : String) : List String :=
  (rows.filter (fun r => match r.parentId with
    | some p => p ≠ "" && p == pid
    | none => false)).map (·.id)

/-- Lower-cases character-wise, modelling JS `toLowerCase` on the
inputs the visual receives.  Strings are handled through their
character lists so that all operations compute by kernel reduction. -/
def lowerChars (l : List Char) : List Char := l.map Char.toLower

/-- JS `String.prototype.trim`: strip whitespace from both ends. -/
def trimChars (l : List Char) : List Char :=
  ((l.dropWhile Char.isWhitespace).reverse.dropWhile Char.isWhitespace).reverse

/-- `q.isPrefix-like check: does `l` start with `q`? (JS `startsWith`). -/
def leadsWith : List Char → List Char → Bool
  | [], _ => true
  | _ :: _, [] => false
  | q :: qs, c :: cs => q == c && leadsWith qs cs

/-- JS `String.prototype.includes`: `q` occurs contiguously in `l`. -/
def hasSub (q : List Char) : List Char → Bool
  | [] => leadsWith q []
  | c :: t => leadsWith q (c :: t) || hasSub q t

/-- The ancestor walk of `applySearchFilter`: follow `parentId` through
the row index until the parent is falsy or not indexed, returning the
topmost ancestor reached.  `fuel` bounds the JS `while (true)` loop;
`rows.length` steps suffice whenever the walk terminates in JS. -/
def topAncestor (rows : List NodeRow) : Nat → String → String
  | 0, current => current
  | fuel + 1, current =>
    match mapGet rows current with
    | none => current
    | some r =>
      match r.parentId with
      | none => current
      | some p =>
        if p = "" then current
        else if (mapGet rows p).isSome then topAncestor rows fuel p
        else current

/-- The stack-based closure of `applySearchFilter`: pop an id, skip it
if already included, otherwise include it and push its children.
Traversal order differs from the JS stack (which pops from the end)
but the resulting membership, the only thing the source observes, is
identical.  `fuel` bounds the `while (stack.length)` loop. -/
def closureDfs (cm : String → List String) : Nat → List String → List String → List String
  | 0, include_, _ => include_
  | _ + 1, include_, [] => include_
  | fuel + 1, include_, i :: stack =>
    if i ∈ include_ then closureDfs cm fuel include_ stack
    else closureDfs cm fuel (include_ ++ [i]) (cm i ++ stack)

/-- The descendant walk shared by the hierarchy, parent and tag
filters: pop an id and expand its children unconditionally; a child is
added to the include set and pushed only when not yet included
(`if (!include.has(c))`).  Unlike the search filter's loop, the popped
id itself is never re-checked against the include set, so a seed that
is already included (as an ancestor) still has its subtree expanded.
`fuel` bounds the `while (stack.length)` loop. -/
def descendDfs (cm : String → List String) : Nat → List String → List String → List String
  | 0, include_, _ => include_
  | _ + 1, include_, [] => include_
  | fuel + 1, include_, i :: stack =>
    let pushed := (cm i).foldl
      (fun acc c => if c ∈ acc.1 then acc else (acc.1 ++ [c], acc.2 ++ [c]))
      (include_, ([] : List String))
    descendDfs cm fuel pushed.1 (pushed.2 ++ stack)

/-- `applySearchFilter` of `visual.ts`: each row whose lower-cased label
contains the lower-cased trimmed query is walked up to its topmost
ancestor; the closure then includes every matched root together with
all of its descendants (via the children index `cm`). -/
def applySearchFilter (cm : String → List String) (rows : List NodeRow) (query : String) :
    List NodeRow :=
  let q := lowerChars (trimChars query.data)
  if q = [] then rows
  else
    let matched := rows.filter (fun r => hasSub q (lowerChars r.label.data))
    let matchedRoots := matched.map (fun r => topAncestor rows rows.length r.id)
    if matchedRoots.length = 0 then []
    else
      let include_ := closureDfs cm (rows.length + matchedRoots.length) [] matchedRoots
      rows.filter (fun r => include_.contains r.id)

/-- The ancestor walk of `filterToNodeBranch`: add the current id
unconditionally, stop when the parent is falsy or unindexed. -/
def branchAncestors (rows : List NodeRow) : Nat → String → List String
  | 0, current => [current]
  | fuel + 1, current =>
    current ::
      (match mapGet rows current with
       | none => []
       | some r =>
         match r.parentId with
         | none => []
         | some p =>
           if p = "" then []
           else if (mapGet rows p).isSome then branchAncestors rows fuel p
           else [])

/-- `filterToNodeBranch` of `visual.ts` (the hierarchy filter): if the
pinned id is not present the rows are returned unchanged; otherwise the
closure is the pinned node's ancestor chain plus its descendants. -/
def filterToNodeBranch (cm : String → List String) (rows : List NodeRow) (nodeId : String) :
    List NodeRow :=
  if (mapGet rows nodeId).isSome = false then rows
  else
    let ancestors := branchAncestors rows rows.length nodeId
    let include_ := descendDfs cm (rows.length + 1) ancestors [nodeId]
    rows.filter (fun r => include_.contains r.id)

/-- The ancestor walk of `filterToParentBranch`: add the current id only
when it is indexed, stop when the parent is falsy or unindexed. -/
def parentAncestors (rows : List NodeRow) : Nat → String → List String
  | 0, _ => []
  | fuel + 1, current =>
    let here := if (mapGet rows current).isSome then [current] else []
    here ++
      (match mapGet rows current with
       | none => []
       | some r =>
         match r.parentId with
         | none => []
         | some p =>
           if p = "" then []
           else if (mapGet rows p).isSome then parentAncestors rows fuel p
           else [])

/-- `filterToParentBranch` of `visual.ts` (the parent filter): a no-op
when the pinned parent has no direct children in `rows`; otherwise the
closure is the parent's ancestor chain, its direct children and all of
their descendants. -/
def filterToParentBranch (cm : String → List String) (rows : List NodeRow) (parentId : String) :
    List NodeRow :=
  let children := (rows.filter (fun r => r.parentId == some parentId)).map (·.id)
  if children.length = 0 then rows
  else
    let include_ := parentAncestors rows rows.length parentId ++ children
    let include' := descendDfs cm (rows.length + children.length) include_ children
    rows.filter (fun r => include'.contains r.id)

/-- One candidate step of `filterToDropdownBranch`: skip unindexed
candidates, add the candidate's ancestor chain, then extend the shared
include set with the candidate's descendants (children already included
by an earlier candidate are not re-expanded, as in the source). -/
def dropdownStep (cm : String → List String) (rows : List NodeRow)
    (include_ : List String) (i : String) : List String :=
  if (mapGet rows i).isSome = false then include_
  else
    let withAnc := (branchAncestors rows rows.length i).foldl
      (fun acc a => if a ∈ acc then acc else acc ++ [a]) include_
    descendDfs cm (rows.length + 1) withAnc [i]

/-- `filterToDropdownBranch` of `visual.ts` (the tag filter): rows whose
trimmed tag, label or id equals the pinned value are matched; each
match's closure candidate is its parent when the parent is indexed,
otherwise the match itself; candidates contribute their ancestor chain
and descendants to a shared include set, in match order. -/
def filterToDropdownBranch (cm : String → List String) (rows : List NodeRow) (value : String) :
    List NodeRow :=
  let matchedRoots := (rows.filter (fun r =>
      trimChars (r.dropdown.getD "").data == value.data
        || r.label == value || r.id == value)).map
    (fun r => match r.parentId with
      | some p => if p ≠ "" && (mapGet rows p).isSome then p else r.id
      | none => r.id)
  if matchedRoots.length = 0 then []
  else
    let include_ := matchedRoots.foldl (dropdownStep cm rows) []
    rows.filter (fun r => include_.contains r.id)

/-- The four user-settable filter inputs of the visual. -/
structure FilterState where
  searchQuery : String
  hierarchyFilterValue : Option String
  parentFilterValue : Option String
  dropdownFilterValue : Option String
deriving Repr, DecidableEq

/-- The state with no filter or search active. -/
def noFilters : FilterState := ⟨"", none, none, none⟩

/-- `if (this.hierarchyFilterValue) result = this.filterToNodeBranch(result, v)`:
the stage runs only when the stored value is truthy. -/
def hierarchyStage (cm : String → List String) (v : Option String)
    (rows : List NodeRow) : List NodeRow :=
  if truthy v then filterToNodeBranch cm rows (v.getD "") else rows

/-- `if (this.parentFilterValue) result = this.filterToParentBranch(result, v)`. -/
def parentStage (cm : String → List String) (v : Option String)
    (rows : List NodeRow) : List NodeRow :=
  if truthy v then filterToParentBranch cm rows (v.getD "") else rows

/-- `if (this.dropdownFilterValue) result = this.filterToDropdownBranch(result, v)`. -/
def dropdownStage (cm : String → List String) (v : Option String)
    (rows : List NodeRow) : List NodeRow :=
  if truthy v then filterToDropdownBranch cm rows (v.getD "") else rows

/-- `applyDropdownFilters` of `visual.ts`: hierarchy filter, then parent
filter, then tag filter, each applied only when its value is truthy and
each operating on the previous stage's surviving rows. -/
def applyDropdownFilters (cm : String → List String) (fs : FilterState)
    (rows : List NodeRow) : List NodeRow :=
  dropdownStage cm fs.dropdownFilterValue
    (parentStage cm fs.parentFilterValue
      (hierarchyStage cm fs.hierarchyFilterValue rows))

/-- The filtered row set of `computeVisibleRows` (its local
`sourceRows`): dropdown filters first, then the search filter. -/
def sourceRowsOf (cm : String → List String) (fs : FilterState)
    (rows : List NodeRow) : List NodeRow :=
  applySearchFilter cm (applyDropdownFilters cm fs rows) fs.searchQuery

/-- The roots of the filtered set, as computed in `computeVisibleRows`:
rows whose `parentId` is falsy or not among the filtered ids. -/
def visibleRoots (sourceRows : List NodeRow) : List NodeRow :=
  sourceRows.filter (fun r => match r.parentId with
    | none => true
    | some p => p == "" || !(sourceRows.any (fun w => w.id == p)))

/-- The collapse-aware reachability walk of `computeVisibleRows`: pop an
id, skip if already visible, otherwise mark visible; children are
pushed only when the id is not collapsed. -/
def visitDfs (cm : String → List String) (collapsed : Finset String) :
    Nat → List String → List String → List String
  | 0, visible, _ => visible
  | _ + 1, visible, [] => visible
  | fuel + 1, visible, i :: stack =>
    if i ∈ visible then visitDfs cm collapsed fuel visible stack
    else
      let visible' := visible ++ [i]
      if i ∈ collapsed then visitDfs cm collapsed fuel visible' stack
      else visitDfs cm collapsed fuel visible' (cm i ++ stack)

/-- `computeVisibleRows` of `visual.ts`: filter pipeline, then a
depth-first reachability walk from every root that does not descend
below collapsed nodes; the result preserves original row order. -/
def computeVisibleRows (cm : String → List String) (fs : FilterState)
    (rows : List NodeRow) (collapsed : Finset String) : List NodeRow :=
  let sourceRows := sourceRowsOf cm fs rows
  let roots := visibleRoots sourceRows
  let visible := visitDfs cm collapsed
    (rows.length + sourceRows.length + roots.length) [] (roots.map (·.id))
  sourceRows.filter (fun r => visible.contains r.id)

/-- `toggleCollapse` of `visual.ts`, restricted to its effect on the
collapse set: a node with no children in the children index is left
alone; otherwise its membership in the collapse set is toggled. -/
def toggleCollapse (cm : String → List String) (collapsed : Finset String)
    (nodeId : String) : Finset String :=
  if (cm nodeId).length > 0 then
    if nodeId ∈ collapsed then collapsed.erase nodeId
    else insert nodeId collapsed
  else collapsed

/-! ## Hierarchy construction and layout (`computeLayout`)

`computeLayout` determines the roots of the visible graph, inserts a
synthetic root when there is not exactly one root, and hands the
working list to `d3-hierarchy`'s `stratify` followed by the `tree`
layout.  `stratify` and the traversal of the resulting `d3` node tree
are external library code; they are modelled below from the library's
documented behaviour (duplicate ids, unresolved parent references,
zero or several stratify roots, and unreachable nodes each abort
construction with a thrown error, which `computeLayout` catches).
Geometry (`x`/`y`) is not modelled; the preorder (`eachBefore`) flat
node list, the parent→child link pairs, and depths are. -/

/-- The sentinel id of the synthetic root inserted for multi-root
forests. -/
def syntheticRootId : String := "__root__"

/-- The synthetic root row (`id "__root__"`, no parent, label "All"). -/
def syntheticRow : NodeRow := ⟨syntheticRootId, none, "All", none⟩

/-- One positioned output node, with geometry and display-only fields
omitted (see the module comment): its id, label and reported depth. -/
structure LayoutNode where
  id : String
  label : String
  depth : Int
deriving Repr, DecidableEq

/-- The root test at the top of `computeLayout`:
`!r.parentId || !idSet.has(r.parentId)`. -/
def isRootRow (rows : List NodeRow) (r : NodeRow) : Bool :=
  match r.parentId with
  | none => true
  | some p => p == "" || !(rows.any (fun w => w.id == p))

/-- The roots computed at the top of `computeLayout`: rows whose
`parentId` is falsy or not among the row ids. -/
def codeRoots (rows : List NodeRow) : List NodeRow :=
  rows.filter (isRootRow rows)

/-- `{ ...working[idx], parentId: syntheticRootId }`: the row reparented
under the synthetic root. -/
def repRow (r : NodeRow) : NodeRow := { r with parentId := some syntheticRootId }

/-- `working.findIndex(x => x.id === r.id)` followed by replacing that
entry's `parentId` with the synthetic root id: reparent the first row
whose id matches. -/
def reparentFirst : List NodeRow → String → List NodeRow
  | [], _ => []
  | w :: ws, rid =>
    if w.id = rid then repRow w :: ws
    else w :: reparentFirst ws rid

/-- The working list handed to `stratify`: the rows themselves when
exactly one root exists, otherwise the rows plus the synthetic root,
with every root reparented under it. -/
def workingOf (rows : List NodeRow) : List NodeRow :=
  let roots := codeRoots rows
  if roots.length = 1 then rows
  else roots.foldl (fun acc r => reparentFirst acc r.id) (rows ++ [syntheticRow])

/-- The pointwise reparenting map over the input rows. -/
def mappedRows (rows : List NodeRow) : List NodeRow :=
  rows.map (fun w => if isRootRow rows w = true then repRow w else w)

/-- The structural failures thrown by `d3-hierarchy`'s `stratify`.
When several faults coexist the library reports whichever its row scan
meets first; the model fixes one priority order — every claim below
depends only on failure versus success. -/
inductive StratifyError where
  | duplicate | missing | noRoot | multipleRoots | cycle
deriving Repr, DecidableEq

/-- `stratify`'s duplicate check: a non-empty id registered twice.
(Rows with an empty id are not indexed by the library.) -/
def hasDupIds : List NodeRow → Bool
  | [] => false
  | r :: rs => (r.id ≠ "" && rs.any (fun x => x.id == r.id)) || hasDupIds rs

/-- `stratify`'s duplicate check depends only on the id list. -/
def idsDup : List String → Bool
  | [] => false
  | i :: is => (i ≠ "" && is.any (fun x => x == i)) || idsDup is

/-- A parent reference resolves when some row carries that non-empty id. -/
def resolvesIn (working : List NodeRow) (p : String) : Bool :=
  working.any (fun w => w.id ≠ "" && w.id == p)

/-- `stratify`'s missing-parent check: some row names a non-empty
parent id that no indexed row carries. -/
def hasMissing (working : List NodeRow) : Bool :=
  working.any (fun r => match r.parentId with
    | none => false
    | some p => p ≠ "" && !(resolvesIn working p))

/-- The rows `stratify` treats as roots: `parentId` null or empty. -/
def stratRoots (working : List NodeRow) : List NodeRow :=
  working.filter (fun r => !(truthy r.parentId))

/-- The children the library links under the node with id `pid`: rows
whose non-empty `parentId` equals it, in row order. -/
def childRows (working : List NodeRow) (pid : String) : List NodeRow :=
  working.filter (fun r => match r.parentId with
    | some p => p ≠ "" && p == pid
    | none => false)

/-- The preorder (`eachBefore`) traversal of the stratified tree from
`r`, paired with each node's depth below `r`.  `fuel` bounds the
recursion depth; `working.length` suffices because on a duplicate-free
working list no parent chain from the root can repeat a row. -/
def preorderRows (working : List NodeRow) : Nat → NodeRow → List (NodeRow × Nat)
  | 0, r => [(r, 0)]
  | fuel + 1, r =>
    (r, 0) ::
      ((childRows working r.id).map
        (fun c => (preorderRows working fuel c).map (fun pd => (pd.1, pd.2 + 1)))).flatten

/-- The parent→child id pairs of the stratified tree from `r`.  The
source collects them by d3's breadth-first `each`; only their
membership is ever observed downstream, so the model lists them in
preorder. -/
def linkPairs (working : List NodeRow) : Nat → NodeRow → List (String × String)
  | 0, _ => []
  | fuel + 1, r =>
    (childRows working r.id).map (fun c => (r.id, c.id))
      ++ ((childRows working r.id).map (fun c => linkPairs working fuel c)).flatten

/-- The external `d3-hierarchy` `stratify` operator on the working
list: reject duplicate ids, unresolved parent references, zero or
multiple roots, and trees that do not reach every row (cycles);
otherwise produce the root together with its preorder traversal. -/
def stratify (working : List NodeRow) :
    Except StratifyError (NodeRow × List (NodeRow × Nat)) :=
  if hasDupIds working then .error .duplicate
  else if hasMissing working then .error .missing
  else match stratRoots working with
    | [] => .error .noRoot
    | [r] =>
      let flat := preorderRows working working.length r
      if flat.length = working.length then .ok (r, flat)
      else .error .cycle
    | _ :: _ :: _ => .error .multipleRoots

/-- The outputs `computeLayout` stores on the visual: the success flag
it returns, the flat node list, the link list (projected to id pairs)
and the table row list. -/
structure LayoutOutputs where
  ok : Bool
  nodes : List LayoutNode
  links : List (String × String)
  tableRows : List LayoutNode
deriving Repr, DecidableEq

/-- Builds one output node: reported depth is the d3 depth minus the
synthetic-root offset. -/
def mkLayoutNode (r : NodeRow) (d : Nat) (offset : Int) : LayoutNode :=
  ⟨r.id, r.label, (d : Int) - offset⟩

/-- `computeLayout` of `visual.ts`: reparent multi-root forests under
the synthetic root, stratify, and on success emit the flat node list,
links and table rows, stripping the synthetic root from each; on a
structural error the outputs are emptied and failure is reported.
(The `flat` and `ordered` lists of the source are the same
`eachBefore` sequence, hence `nodes` and `tableRows` coincide.) -/
def computeLayout (rows : List NodeRow) : LayoutOutputs :=
  let hasSynthetic := (codeRoots rows).length ≠ 1
  match stratify (workingOf rows) with
  | .error _ => ⟨false, [], [], []⟩
  | .ok (root, flat) =>
    let depthOffset : Int := if hasSynthetic then 1 else 0
    let allNodes := flat.map (fun pd => mkLayoutNode pd.1 pd.2 depthOffset)
    let allLinks := linkPairs (workingOf rows) (workingOf rows).length root
    if hasSynthetic then
      ⟨true, allNodes.filter (fun n => n.id ≠ syntheticRootId),
        allLinks.filter (fun l => l.1 ≠ syntheticRootId),
        allNodes.filter (fun n => n.id ≠ syntheticRootId)⟩
    else ⟨true, allNodes, allLinks, allNodes⟩

/-- The outcome of one `computeLayoutFromState` run: the success flag,
the stored outputs, and whether the "No matches." message was shown. -/
structure PipelineResult where
  ok : Bool
  nodes : List LayoutNode
  links : List (String × String)
  tableRows : List LayoutNode
  showsNoMatches : Bool
deriving Repr, DecidableEq

/-- `computeLayoutFromState` of `visual.ts`: compute the visible rows;
when none survive, clear the outputs and show "No matches." only if
the search query, hierarchy filter or parent filter is truthy (the
dropdown filter is not consulted); otherwise lay the visible rows
out. -/
def computeLayoutFromState (cm : String → List String) (fs : FilterState)
    (rows : List NodeRow) (collapsed : Finset String) : PipelineResult :=
  let visibleRows := computeVisibleRows cm fs rows collapsed
  if visibleRows.length = 0 then
    ⟨true, [], [], [],
      fs.searchQuery ≠ "" || truthy fs.hierarchyFilterValue || truthy fs.parentFilterValue⟩
  else
    let lo := computeLayout visibleRows
    ⟨lo.ok, lo.nodes, lo.links, lo.tableRows, false⟩

/-! ## Viewport transform state machine

The view transform `(tx, ty, scale)` is mutated by fit-to-viewport,
wheel zoom, the zoom buttons (`zoomBy`), the zoom percentage field
(`commitZoom`), double-click zoom, pan, and the stationary-node
adjustment (`keepNodeScreenPosition`).  Screen arithmetic is modelled
over `ℚ` (exact arithmetic; the source uses floating point). -/

/-- The anchored translate update shared by `commitZoom`, `zoomBy` and
the wheel handler: `anchor - (anchor - t0) * (sNext / sPrev)`. -/
def zoomTranslate (t0 anchor sPrev sNext : ℚ) : ℚ :=
  anchor - (anchor - t0) * (sNext / sPrev)

/-- The view transform owned by the interaction layer. -/
structure ViewTransform where
  tx : ℚ
  ty : ℚ
  scale : ℚ
deriving Repr, DecidableEq

/-- The initial transform of a fresh `Visual` (`tx = ty = 20`,
`scale = 1`). -/
def initialTransform : ViewTransform := ⟨20, 20, 1⟩

/-- The operations that can modify the view transform, with the data
each handler reads from its event, the settings or the layout. -/
inductive ViewOp where
  /-- `fitToViewport`: whether any nodes exist, the viewport size, and
  the bounding box of the visible node footprints. -/
  | fit (hasNodes : Bool) (viewW viewH minX minY maxX maxY : ℚ)
  /-- The canvas `wheel` handler: `deltaY` and the mouse position. -/
  | wheel (deltaY mx my : ℚ)
  /-- `zoomBy` (zoom buttons): the factor and the viewport size. -/
  | zoomStep (factor viewW viewH : ℚ)
  /-- `commitZoom` (the percentage field): the parsed number (`none`
  for non-finite input) and the viewport size. -/
  | zoomInput (raw : Option ℚ) (viewW viewH : ℚ)
  /-- The `dblclick` handler: the configured percent, the hit node's
  layout position and the viewport size. -/
  | doubleClickZoom (zoomPercent nodeX nodeY viewW viewH : ℚ)
  /-- The pan branch of `pointermove`: the screen-space delta. -/
  | pan (dx dy : ℚ)
  /-- `keepNodeScreenPosition`: the node's layout position and its
  captured screen point. -/
  | keepNode (nodeX nodeY sx sy : ℚ)

/-- One transition of the view-transform state machine, translated
handler by handler from `visual.ts`. -/
def applyOp (st : ViewTransform) : ViewOp → ViewTransform
  | .fit hasNodes viewW viewH minX minY maxX maxY =>
    if hasNodes = false ∨ viewW ≤ 0 ∨ viewH ≤ 0 then st
    else
      let contentW := maxX - minX
      let contentH := maxY - minY
      let availableW := max 1 (viewW - 24 * 2)
      let availableH := max 1 (viewH - 24 * 2)
      let sx := availableW / max 1 contentW
      let sy := availableH / max 1 contentH
      let scale := min 2 (max (1/5) (min sx sy))
      let cx := (minX + maxX) / 2
      let cy := (minY + maxY) / 2
      ⟨viewW / 2 - cx * scale, viewH / 2 - cy * scale, scale⟩
  | .wheel deltaY mx my =>
    let zoomFactor : ℚ := if 0 < -deltaY then 11/10 else 9/10
    let next := min 4 (max (1/5) (st.scale * zoomFactor))
    ⟨zoomTranslate st.tx mx st.scale next, zoomTranslate st.ty my st.scale next, next⟩
  | .zoomStep factor viewW viewH =>
    let next := min 4 (max (1/5) (st.scale * factor))
    ⟨zoomTranslate st.tx (viewW / 2) st.scale next,
      zoomTranslate st.ty (viewH / 2) st.scale next, next⟩
  | .zoomInput raw viewW viewH =>
    match raw with
    | none => st
    | some num =>
      let clamped := min 400 (max 20 num)
      let next := clamped / 100
      if next = st.scale then st
      else
        ⟨zoomTranslate st.tx (viewW / 2) st.scale next,
          zoomTranslate st.ty (viewH / 2) st.scale next, next⟩
  | .doubleClickZoom zoomPercent nodeX nodeY viewW viewH =>
    let factor := max 10 zoomPercent / 100
    let next := min 4 (max (1/5) (st.scale * factor))
    ⟨viewW / 2 - nodeX * next, viewH / 2 - nodeY * next, next⟩
  | .pan dx dy => ⟨st.tx + dx, st.ty + dy, st.scale⟩
  | .keepNode nodeX nodeY sx sy =>
    ⟨sx - nodeX * st.scale, sy - nodeY * st.scale, st.scale⟩

/-- The transform reached from the initial state by a sequence of
interactions. -/
def applyOps (ops : List ViewOp) : ViewTransform :=
  ops.foldl applyOp initialTransform

/-- The claimed scale range. -/
def scaleInRange (st : ViewTransform) : Prop :=
  1/5 ≤ st.scale ∧ st.scale ≤ 4

/-! ## Concrete fixtures -/

/-- The spec's running example: `A ← B ← D`, `A ← C`, labels = ids. -/
def exRows : List NodeRow :=
  [⟨"A", none, "A", none⟩, ⟨"B", some "A", "B", none⟩,
   ⟨"C", some "A", "C", none⟩, ⟨"D", some "B", "D", none⟩]

/-- The filter state with only the search query `"D"` active. -/
def exSearchD : FilterState := ⟨"D", none, none, none⟩

/-- A single root whose dropdown tag carries surrounding blanks. -/
def exTagRows : List NodeRow := [⟨"A", none, "A", some " X "⟩]

/-- Only the dropdown filter active, pinned to the untrimmed tag. -/
def exTagFilter : FilterState := ⟨"", none, none, some " X "⟩

-- Scratch checks of the layout model.
example :
    computeLayout [⟨"A", none, "A", none⟩, ⟨"B", none, "B", none⟩] =
      ⟨true, [⟨"A", "A", 0⟩, ⟨"B", "B", 0⟩], [], [⟨"A", "A", 0⟩, ⟨"B", "B", 0⟩]⟩ := by
  decide

example :
    computeLayout [⟨"A", none, "A", none⟩, ⟨"B", some "A", "B", none⟩] =
      ⟨true, [⟨"A", "A", 0⟩, ⟨"B", "B", 1⟩], [("A", "B")],
        [⟨"A", "A", 0⟩, ⟨"B", "B", 1⟩]⟩ := by
  decide

example :
    computeLayout [⟨"A", none, "A", none⟩, ⟨"A", none, "A2", none⟩] =
      ⟨false, [], [], []⟩ := by
  decide

example : computeLayout [⟨"A", some "Z", "A", none⟩] = ⟨false, [], [], []⟩ := by
  decide

-- Scratch checks of the descendant expansion of the three
-- dropdown-style filters: a pinned node's (or pinned children's, or
-- matched candidate's) whole subtree is kept even though the seed is
-- already included as an ancestor.
example :
    (filterToNodeBranch (childrenMapOf exRows) exRows "B").map (·.id)
      = ["A", "B", "D"] := by
  decide

example :
    (filterToParentBranch (childrenMapOf exRows) exRows "A").map (·.id)
      = ["A", "B", "C", "D"] := by
  decide

example :
    (filterToDropdownBranch (childrenMapOf exRows) exRows "B").map (·.id)
      = ["A", "B", "C", "D"] := by
  decide

-- With the hierarchy filter pinned to the root and a search matching a
-- child, both survive: no "no matches" state arises.
example :
    (computeVisibleRows (childrenMapOf [⟨"A", none, "A", none⟩, ⟨"B", some "A", "B", none⟩])
        ⟨"B", some "A", none, none⟩
        [⟨"A", none, "A", none⟩, ⟨"B", some "A", "B", none⟩] ∅).map (·.id)
      = ["A", "B"] := by
  decide

/-! ## C10: hierarchy filter with an absent node id is the identity -/

/-- Absence of `i` from the row index, phrased over the rows. -/
theorem mapGet_eq_none {rows : List NodeRow} {i : String}
    (h : ∀ r ∈ rows, r.id ≠ i) : mapGet rows i = none := by
  unfold mapGet
  rw [List.find?_eq_none]
  intro x hx
  simp only [List.mem_reverse] at hx
  simpa using h x hx

/-- C10: for every row set and every hierarchy-filter node id that is
not the id of any row, `filterToNodeBranch` returns the rows unchanged
rather than emptying the view. -/
theorem filterToNodeBranch_absent_id (cm : String → List String)
    (rows : List NodeRow) (nodeId : String)
    (h : ∀ r ∈ rows, r.id ≠ nodeId) :
    filterToNodeBranch cm rows nodeId = rows := by
  unfold filterToNodeBranch
  rw [mapGet_eq_none h]
  simp

/-- Witness for C10 at a concrete absent id. -/
theorem filterToNodeBranch_absent_id_witness :
    filterToNodeBranch (childrenMapOf exRows) exRows "Z" = exRows :=
  filterToNodeBranch_absent_id (childrenMapOf exRows) exRows "Z" (by decide)

/-! ## C8: zoom anchoring -/

/-- C8: the anchored translate update of `commitZoom`/`zoomBy`/wheel
zoom keeps the layout point under the anchor fixed: if `p` maps to the
anchor under `(s0, t0)`, it still maps to the anchor under
`(s1, zoomTranslate t0 a s0 s1)`, over exact arithmetic. -/
theorem zoomTranslate_anchor_fixed (p s0 t0 a s1 : ℚ)
    (h0 : s0 ≠ 0) (hp : p * s0 + t0 = a) :
    p * s1 + zoomTranslate t0 a s0 s1 = a := by
  unfold zoomTranslate
  have ha : a - t0 = p * s0 := by linarith
  rw [ha]
  field_simp
  ring

/-- Witness for C8 at a concrete zoom step (`s0 = 1`, `t0 = 0`,
anchor `2`, `s1 = 2`, `p = 2`). -/
theorem zoomTranslate_anchor_fixed_witness :
    (2 : ℚ) * 2 + zoomTranslate 0 2 1 2 = 2 :=
  zoomTranslate_anchor_fixed 2 1 0 2 2 (by norm_num) (by norm_num)

/-! ## C9: the scale stays inside `[0.2, 4]` -/

/-- Every single transition keeps the scale inside `[0.2, 4]`. -/
theorem applyOp_scaleInRange (st : ViewTransform) (op : ViewOp)
    (h : scaleInRange st) : scaleInRange (applyOp st op) := by
  obtain ⟨h1, h2⟩ := h
  cases op with
  | fit hasNodes viewW viewH minX minY maxX maxY =>
    simp only [applyOp]
    split
    · exact ⟨h1, h2⟩
    · exact ⟨le_min (by norm_num) (le_max_left _ _),
        le_trans (min_le_left _ _) (by norm_num)⟩
  | wheel deltaY mx my =>
    exact ⟨le_min (by norm_num) (le_max_left _ _), min_le_left _ _⟩
  | zoomStep factor viewW viewH =>
    exact ⟨le_min (by norm_num) (le_max_left _ _), min_le_left _ _⟩
  | zoomInput raw viewW viewH =>
    cases raw with
    | none => exact ⟨h1, h2⟩
    | some num =>
      simp only [applyOp]
      split
      · exact ⟨h1, h2⟩
      · constructor
        · have h20 : (20 : ℚ) ≤ min 400 (max 20 num) :=
            le_min (by norm_num) (le_max_left _ _)
          show (1/5 : ℚ) ≤ min 400 (max 20 num) / 100
          linarith
        · have h400 : min 400 (max 20 num) ≤ (400 : ℚ) := min_le_left _ _
          show min 400 (max 20 num) / 100 ≤ (4 : ℚ)
          linarith
  | doubleClickZoom zoomPercent nodeX nodeY viewW viewH =>
    exact ⟨le_min (by norm_num) (le_max_left _ _), min_le_left _ _⟩
  | pan dx dy => exact ⟨h1, h2⟩
  | keepNode nodeX nodeY sx sy => exact ⟨h1, h2⟩

/-- The invariant holds along any operation sequence from any state
satisfying it. -/
theorem foldl_applyOp_scaleInRange (ops : List ViewOp) :
    ∀ st : ViewTransform, scaleInRange st → scaleInRange (ops.foldl applyOp st) := by
  induction ops with
  | nil => intro st h; exact h
  | cons op rest ih =>
    intro st h
    exact ih _ (applyOp_scaleInRange st op h)

/-- C9: starting from the initial scale of 1, after every sequence of
transform-modifying operations the scale lies in `[0.2, 4]`; and
whenever `fitToViewport` actually recomputes the transform (nodes
exist, viewport positive) the resulting scale is additionally capped
at 2. -/
theorem viewTransform_scale_invariant :
    (∀ ops : List ViewOp,
      1/5 ≤ (applyOps ops).scale ∧ (applyOps ops).scale ≤ 4) ∧
    (∀ (st : ViewTransform) (hasNodes : Bool) (viewW viewH minX minY maxX maxY : ℚ),
      ¬ (hasNodes = false ∨ viewW ≤ 0 ∨ viewH ≤ 0) →
      (applyOp st (.fit hasNodes viewW viewH minX minY maxX maxY)).scale ≤ 2) := by
  constructor
  · intro ops
    exact foldl_applyOp_scaleInRange ops initialTransform
      ⟨by norm_num [initialTransform], by norm_num [initialTransform]⟩
  · intro st hasNodes viewW viewH minX minY maxX maxY hguard
    simp only [applyOp]
    rw [if_neg hguard]
    exact min_le_left _ _

/-- Witness for C9: the empty sequence, and a concrete fit whose guard
passes. -/
theorem viewTransform_scale_invariant_witness :
    (1/5 ≤ (applyOps []).scale ∧ (applyOps []).scale ≤ 4) ∧
    (applyOp initialTransform (.fit true 100 100 0 0 50 50)).scale ≤ 2 :=
  ⟨viewTransform_scale_invariant.1 [],
    viewTransform_scale_invariant.2 initialTransform true 100 100 0 0 50 50
      (by push_neg; exact ⟨by simp, by norm_num, by norm_num⟩)⟩

/-! ## C7: collapse toggling -/

/-- C7: toggling collapse on a node with no children in the children
index leaves the collapse set (hence the visible set) unchanged, and
for every node a double toggle restores the collapse set and so the
visible row set exactly. -/
theorem toggleCollapse_leaf_noop_and_involutive (cm : String → List String)
    (fs : FilterState) (rows : List NodeRow) (collapsed : Finset String)
    (nodeId : String) :
    (cm nodeId = [] →
      toggleCollapse cm collapsed nodeId = collapsed) ∧
    toggleCollapse cm (toggleCollapse cm collapsed nodeId) nodeId = collapsed ∧
    computeVisibleRows cm fs rows
        (toggleCollapse cm (toggleCollapse cm collapsed nodeId) nodeId)
      = computeVisibleRows cm fs rows collapsed := by
  have h2 : toggleCollapse cm (toggleCollapse cm collapsed nodeId) nodeId = collapsed := by
    by_cases hl : (cm nodeId).length > 0
    · by_cases hm : nodeId ∈ collapsed
      · simp [toggleCollapse, hl, hm, Finset.insert_erase hm]
      · simp [toggleCollapse, hl, hm, Finset.erase_insert hm]
    · simp [toggleCollapse, hl]
  refine ⟨fun h => by simp [toggleCollapse, h], h2, by rw [h2]⟩

/-- Witness for C7: toggling the childless node `D` is a no-op, and a
double toggle of `B` restores the empty collapse set. -/
theorem toggleCollapse_leaf_noop_and_involutive_witness :
    toggleCollapse (childrenMapOf exRows) ∅ "D" = ∅ ∧
    toggleCollapse (childrenMapOf exRows)
      (toggleCollapse (childrenMapOf exRows) ∅ "B") "B" = ∅ :=
  ⟨(toggleCollapse_leaf_noop_and_involutive (childrenMapOf exRows) noFilters
      exRows ∅ "D").1 (by decide),
    (toggleCollapse_leaf_noop_and_involutive (childrenMapOf exRows) noFilters
      exRows ∅ "B").2.1⟩

/-! ## C1: the search example (corrected) -/

/-- Counterexample to C1 as stated: on the spec's example rows with
search query `"D"`, the row `C` is visible (the code includes the full
tree containing a match), so the visible set is not `{A, B, D}`. -/
theorem searchExample_C_is_visible :
    "C" ∈ (computeVisibleRows (childrenMapOf exRows) exSearchD exRows ∅).map (·.id) ∧
    "C" ∉ (["A", "B", "D"] : List String) := by
  decide

/-- C1 as amended: search `"D"` keeps the entire tree containing the
match, `{A, B, C, D}`; adding `B` to the collapse set afterwards drops
only `D`, yielding `{A, B, C}`, with the search query unchanged. -/
theorem searchExample_visible_sets :
    (computeVisibleRows (childrenMapOf exRows) exSearchD exRows ∅).map (·.id)
        = ["A", "B", "C", "D"] ∧
    (computeVisibleRows (childrenMapOf exRows) exSearchD exRows {"B"}).map (·.id)
        = ["A", "B", "C"] := by
  decide

/-! ## C6: the "no matches" state (corrected) -/

/-- Counterexample to C6 as stated: with only the dropdown filter
active (pinned to a tag that matches no row once trimmed), zero rows
survive, yet the "No matches." message is not surfaced because
`computeLayoutFromState` does not consult the dropdown filter. -/
theorem noMatches_dropdown_only_not_surfaced :
    (computeVisibleRows (childrenMapOf exTagRows) exTagFilter exTagRows ∅).length = 0 ∧
    truthy exTagFilter.dropdownFilterValue = true ∧
    (computeLayoutFromState (childrenMapOf exTagRows) exTagFilter exTagRows ∅).showsNoMatches
      = false := by
  decide

/-- C6 as amended: whenever zero rows survive and the search query,
hierarchy filter or parent filter is active, the "no matches" state is
surfaced and the node/link/table outputs are empty (an active dropdown
filter alone does not trigger the message). -/
theorem noMatches_surfaced (cm : String → List String) (fs : FilterState)
    (rows : List NodeRow) (collapsed : Finset String)
    (hempty : computeVisibleRows cm fs rows collapsed = [])
    (hactive : fs.searchQuery ≠ "" ∨ truthy fs.hierarchyFilterValue = true
      ∨ truthy fs.parentFilterValue = true) :
    (computeLayoutFromState cm fs rows collapsed).showsNoMatches = true ∧
    (computeLayoutFromState cm fs rows collapsed).nodes = [] ∧
    (computeLayoutFromState cm fs rows collapsed).links = [] ∧
    (computeLayoutFromState cm fs rows collapsed).tableRows = [] := by
  unfold computeLayoutFromState
  rw [hempty]
  rcases hactive with h | h | h <;> simp [h]

/-- Witness for C6 (amended) at a concrete non-matching search. -/
theorem noMatches_surfaced_witness :
    (computeLayoutFromState (childrenMapOf exRows) ⟨"zzz", none, none, none⟩
        exRows ∅).showsNoMatches = true :=
  (noMatches_surfaced (childrenMapOf exRows) ⟨"zzz", none, none, none⟩ exRows ∅
    (by decide) (Or.inl (by decide))).1

/-! ## Duplicate-id bookkeeping for C4 -/

theorem any_id_eq_map_any (rs : List NodeRow) (i : String) :
    (rs.any fun x => x.id == i) = ((rs.map (·.id)).any fun x => x == i) := by
  induction rs with
  | nil => rfl
  | cons y ys ih => simp [List.any_cons, ih]

theorem hasDupIds_eq_idsDup (rows : List NodeRow) :
    hasDupIds rows = idsDup (rows.map (·.id)) := by
  induction rows with
  | nil => rfl
  | cons r rs ih =>
    simp only [hasDupIds, idsDup, List.map_cons, ih, any_id_eq_map_any]

theorem idsDup_append_left {l : List String} (l' : List String)
    (h : idsDup l = true) : idsDup (l ++ l') = true := by
  induction l with
  | nil => cases h
  | cons i is ih =>
    simp only [idsDup, Bool.or_eq_true, Bool.and_eq_true] at h
    rcases h with ⟨hne, hany⟩ | hrec
    · simp only [List.cons_append, idsDup, Bool.or_eq_true, Bool.and_eq_true]
      exact Or.inl ⟨hne, by
        rw [List.any_eq_true] at hany ⊢
        obtain ⟨x, hx, hxe⟩ := hany
        exact ⟨x, List.mem_append_left _ hx, hxe⟩⟩
    · simp only [List.cons_append, idsDup, Bool.or_eq_true]
      exact Or.inr (ih hrec)

/-- A duplicated non-empty id makes `idsDup` fire. -/
theorem idsDup_of_not_nodup {l : List String}
    (hne : ∀ i ∈ l, i ≠ "") (h : ¬ l.Nodup) : idsDup l = true := by
  induction l with
  | nil => exact absurd List.nodup_nil h
  | cons i is ih =>
    rw [List.nodup_cons] at h
    push_neg at h
    by_cases hmem : i ∈ is
    · simp only [idsDup, Bool.or_eq_true, Bool.and_eq_true]
      refine Or.inl ⟨?_, ?_⟩
      · simpa using hne i (List.mem_cons_self i is)
      · rw [List.any_eq_true]
        exact ⟨i, hmem, by simp⟩
    · have : ¬ is.Nodup := fun hd => absurd (h hmem) (by simp [hd])
      simp only [idsDup, Bool.or_eq_true]
      exact Or.inr (ih (fun j hj => hne j (List.mem_cons_of_mem i hj)) this)

/-- `reparentFirst` changes only a `parentId`, never the id list. -/
theorem reparentFirst_map_id (l : List NodeRow) (rid : String) :
    (reparentFirst l rid).map (·.id) = l.map (·.id) := by
  induction l with
  | nil => rfl
  | cons w ws ih =>
    by_cases hw : w.id = rid
    · simp [reparentFirst, hw, repRow]
    · simp [reparentFirst, hw, ih]

/-- Neither reparenting nor the synthetic root changes the original
ids: the working list's id list extends the input's. -/
theorem workingOf_map_id (rows : List NodeRow) :
    (workingOf rows).map (·.id) = rows.map (·.id)
      ∨ (workingOf rows).map (·.id) = rows.map (·.id) ++ [syntheticRootId] := by
  unfold workingOf
  by_cases h1 : (codeRoots rows).length = 1
  · exact Or.inl (by simp [h1])
  · right
    simp only [h1, if_false]
    have : ∀ (todo : List NodeRow) (acc : List NodeRow),
        (todo.foldl (fun acc r => reparentFirst acc r.id) acc).map (·.id)
          = acc.map (·.id) := by
      intro todo
      induction todo with
      | nil => intro acc; rfl
      | cons t ts ih =>
        intro acc
        rw [List.foldl_cons, ih, reparentFirst_map_id]
    rw [this]
    simp [syntheticRow]

/-- C4: any row set with a duplicated (non-empty) id makes hierarchy
construction report a structural failure — caught, not thrown — and
leaves the node, link and table outputs empty. -/
theorem duplicate_ids_fail (rows : List NodeRow)
    (hne : ∀ r ∈ rows, r.id ≠ "")
    (hdup : ¬ (rows.map (·.id)).Nodup) :
    computeLayout rows = ⟨false, [], [], []⟩ := by
  have h1 : idsDup (rows.map (·.id)) = true :=
    idsDup_of_not_nodup (by simpa using hne) hdup
  have h2 : hasDupIds (workingOf rows) = true := by
    rw [hasDupIds_eq_idsDup]
    rcases workingOf_map_id rows with h | h
    · rw [h]; exact h1
    · rw [h]; exact idsDup_append_left _ h1
  unfold computeLayout stratify
  simp [h2]

/-- Witness for C4: the id `A` appears twice. -/
theorem duplicate_ids_fail_witness :
    computeLayout [⟨"A", none, "A", none⟩, ⟨"A", none, "A2", none⟩]
      = ⟨false, [], [], []⟩ :=
  duplicate_ids_fail _ (by decide) (by decide)

/-! ## C5: dangling parent references -/

/-- C5: whenever the working list handed to tree construction contains
a row whose non-null `parentId` is the id of no row of the working
list, construction reports a hard failure with empty outputs — the row
is not silently rendered as a root.  (`p ≠ ""` reflects that ingestion
normalises blank parents to null, so a non-null stored parent id is
non-empty.) -/
theorem dangling_parent_fails (rows : List NodeRow) (w : NodeRow) (p : String)
    (hw : w ∈ workingOf rows) (hp : w.parentId = some p) (hpne : p ≠ "")
    (hmiss : ∀ x ∈ workingOf rows, x.id ≠ p) :
    computeLayout rows = ⟨false, [], [], []⟩ := by
  have hres : resolvesIn (workingOf rows) p = false := by
    unfold resolvesIn
    rw [List.any_eq_false]
    intro x hx
    simp only [Bool.and_eq_true, beq_iff_eq, not_and]
    intro _ he
    exact hmiss x hx he
  have h : hasMissing (workingOf rows) = true := by
    unfold hasMissing
    rw [List.any_eq_true]
    refine ⟨w, hw, ?_⟩
    rw [hp]
    simp [hpne, hres]
  unfold computeLayout stratify
  by_cases hd : hasDupIds (workingOf rows) <;> simp [hd, h]

/-- Witness for C5: a single row pointing at the absent parent `Z`. -/
theorem dangling_parent_fails_witness :
    computeLayout [⟨"A", some "Z", "A", none⟩] = ⟨false, [], [], []⟩ :=
  dangling_parent_fails [⟨"A", some "Z", "A", none⟩] ⟨"A", some "Z", "A", none⟩ "Z"
    (by decide) rfl (by decide) (by decide)

/-! ## C2: the visible set is connected upwards -/

theorem applySearchFilter_subset (cm : String → List String) (rows : List NodeRow)
    (query : String) : ∀ r ∈ applySearchFilter cm rows query, r ∈ rows := by
  intro r hr
  simp only [applySearchFilter] at hr
  split at hr
  · exact hr
  · split at hr
    · cases hr
    · exact (List.mem_filter.mp hr).1

theorem filterToNodeBranch_subset (cm : String → List String) (rows : List NodeRow)
    (nodeId : String) : ∀ r ∈ filterToNodeBranch cm rows nodeId, r ∈ rows := by
  intro r hr
  simp only [filterToNodeBranch] at hr
  split at hr
  · exact hr
  · exact (List.mem_filter.mp hr).1

theorem filterToParentBranch_subset (cm : String → List String) (rows : List NodeRow)
    (parentId : String) : ∀ r ∈ filterToParentBranch cm rows parentId, r ∈ rows := by
  intro r hr
  simp only [filterToParentBranch] at hr
  split at hr
  · exact hr
  · exact (List.mem_filter.mp hr).1

theorem filterToDropdownBranch_subset (cm : String → List String) (rows : List NodeRow)
    (value : String) : ∀ r ∈ filterToDropdownBranch cm rows value, r ∈ rows := by
  intro r hr
  simp only [filterToDropdownBranch] at hr
  split at hr
  · cases hr
  · exact (List.mem_filter.mp hr).1

theorem applyDropdownFilters_subset (cm : String → List String) (fs : FilterState)
    (rows : List NodeRow) : ∀ r ∈ applyDropdownFilters cm fs rows, r ∈ rows := by
  intro r hr
  unfold applyDropdownFilters dropdownStage at hr
  have hr2 : r ∈ parentStage cm fs.parentFilterValue
      (hierarchyStage cm fs.hierarchyFilterValue rows) := by
    split at hr
    · exact filterToDropdownBranch_subset _ _ _ r hr
    · exact hr
  unfold parentStage at hr2
  have hr1 : r ∈ hierarchyStage cm fs.hierarchyFilterValue rows := by
    split at hr2
    · exact filterToParentBranch_subset _ _ _ r hr2
    · exact hr2
  unfold hierarchyStage at hr1
  split at hr1
  · exact filterToNodeBranch_subset _ _ _ r hr1
  · exact hr1

theorem sourceRowsOf_subset (cm : String → List String) (fs : FilterState)
    (rows : List NodeRow) : ∀ r ∈ sourceRowsOf cm fs rows, r ∈ rows := by
  intro r hr
  exact applyDropdownFilters_subset cm fs rows r
    (applySearchFilter_subset cm _ fs.searchQuery r hr)

/-- The visible list only ever grows during the reachability walk. -/
theorem visitDfs_mono (cm : String → List String) (collapsed : Finset String) :
    ∀ (fuel : Nat) (visible stack : List String),
      ∀ i ∈ visible, i ∈ visitDfs cm collapsed fuel visible stack := by
  intro fuel
  induction fuel with
  | zero => intro visible stack i hi; exact hi
  | succ n ih =>
    intro visible stack i hi
    cases stack with
    | nil => exact hi
    | cons j rest =>
      simp only [visitDfs]
      split
      · exact ih visible rest i hi
      · split
        · exact ih (visible ++ [j]) rest i (List.mem_append_left _ hi)
        · exact ih (visible ++ [j]) (cm j ++ rest) i (List.mem_append_left _ hi)

/-- Soundness of the reachability walk: every visible id is a root id
or a non-collapsed visible id's child. -/
theorem visitDfs_sound (cm : String → List String) (collapsed : Finset String)
    (rootIds : List String) :
    ∀ (fuel : Nat) (visible stack : List String),
      (∀ i ∈ visible, i ∈ rootIds ∨ ∃ u ∈ visible, u ∉ collapsed ∧ i ∈ cm u) →
      (∀ i ∈ stack, i ∈ rootIds ∨ ∃ u ∈ visible, u ∉ collapsed ∧ i ∈ cm u) →
      ∀ i ∈ visitDfs cm collapsed fuel visible stack,
        i ∈ rootIds ∨
          ∃ u ∈ visitDfs cm collapsed fuel visible stack, u ∉ collapsed ∧ i ∈ cm u := by
  intro fuel
  induction fuel with
  | zero =>
    intro visible stack hP _ i hi
    rcases hP i hi with h | ⟨u, hu, hcoll, hchild⟩
    · exact Or.inl h
    · exact Or.inr ⟨u, hu, hcoll, hchild⟩
  | succ n ih =>
    intro visible stack hP hQ i hi
    cases stack with
    | nil =>
      rcases hP i hi with h | ⟨u, hu, hcoll, hchild⟩
      · exact Or.inl h
      · exact Or.inr ⟨u, hu, hcoll, hchild⟩
    | cons j rest =>
      simp only [visitDfs] at hi ⊢
      by_cases hjv : j ∈ visible
      · rw [if_pos hjv] at hi ⊢
        exact ih visible rest hP (fun k hk => hQ k (List.mem_cons_of_mem j hk)) i hi
      · rw [if_neg hjv] at hi ⊢
        have hPj : ∀ k ∈ visible ++ [j],
            k ∈ rootIds ∨ ∃ u ∈ visible ++ [j], u ∉ collapsed ∧ k ∈ cm u := by
          intro k hk
          rcases List.mem_append.mp hk with hk | hk
          · rcases hP k hk with h | ⟨u, hu, hc, hch⟩
            · exact Or.inl h
            · exact Or.inr ⟨u, List.mem_append_left _ hu, hc, hch⟩
          · have hkj : k = j := List.mem_singleton.mp hk
            subst hkj
            rcases hQ k (List.mem_cons_self k rest) with h | ⟨u, hu, hc, hch⟩
            · exact Or.inl h
            · exact Or.inr ⟨u, List.mem_append_left _ hu, hc, hch⟩
        by_cases hjc : j ∈ collapsed
        · -- j collapsed: children not pushed
          rw [if_pos hjc] at hi ⊢
          refine ih (visible ++ [j]) rest hPj (fun k hk => ?_) i hi
          rcases hQ k (List.mem_cons_of_mem j hk) with h | ⟨u, hu, hc, hch⟩
          · exact Or.inl h
          · exact Or.inr ⟨u, List.mem_append_left _ hu, hc, hch⟩
        · -- j not collapsed: push its children
          rw [if_neg hjc] at hi ⊢
          refine ih (visible ++ [j]) (cm j ++ rest) hPj (fun k hk => ?_) i hi
          rcases List.mem_append.mp hk with hk | hk
          · exact Or.inr ⟨j, List.mem_append_right _ (List.mem_singleton.mpr rfl),
              hjc, hk⟩
          · rcases hQ k (List.mem_cons_of_mem j hk) with h | ⟨u, hu, hc, hch⟩
            · exact Or.inl h
            · exact Or.inr ⟨u, List.mem_append_left _ hu, hc, hch⟩

/-- Rows with equal ids are equal when the id list has no duplicates. -/
theorem eq_of_mem_of_id_eq {rows : List NodeRow}
    (hnodup : (rows.map (·.id)).Nodup) {a b : NodeRow}
    (ha : a ∈ rows) (hb : b ∈ rows) (hid : a.id = b.id) : a = b :=
  List.inj_on_of_nodup_map hnodup ha hb hid

/-- The children index the visual builds validates the parent pointers:
an id listed under key `u` belongs to a row whose `parentId` is `u`. -/
theorem childrenMapOf_sound (rows : List NodeRow)
    (hnodup : (rows.map (·.id)).Nodup) :
    ∀ u c, c ∈ childrenMapOf rows u → ∀ r ∈ rows, r.id = c → r.parentId = some u := by
  intro u c hc r hr hid
  unfold childrenMapOf at hc
  obtain ⟨w, hw, hwid⟩ := List.mem_map.mp hc
  have hwmem := (List.mem_filter.mp hw).1
  have hwpred := (List.mem_filter.mp hw).2
  have hrw : r = w := eq_of_mem_of_id_eq hnodup hr hwmem (hid.trans hwid.symm)
  subst hrw
  revert hwpred
  match hp : r.parentId with
  | none => intro h; cases h
  | some p =>
    intro h
    simp only [Bool.and_eq_true, beq_iff_eq] at h
    rw [h.2]

/-- C2: for every row set with unique non-empty ids, every filter/search
state and every collapse set, the visible set is connected upwards:
whenever a visible node's `parentId` is the id of some row of the
computation's source set (the filtered rows), that parent row is
visible too.  `cm` is any children index whose entries agree with the
rows' parent pointers, which `childrenMapOf` guarantees. -/
theorem computeVisibleRows_connected (cm : String → List String) (fs : FilterState)
    (rows : List NodeRow) (collapsed : Finset String)
    (hne : ∀ r ∈ rows, r.id ≠ "")
    (hnodup : (rows.map (·.id)).Nodup)
    (hcm : ∀ u c, c ∈ cm u → ∀ r ∈ rows, r.id = c → r.parentId = some u) :
    ∀ v ∈ computeVisibleRows cm fs rows collapsed, ∀ pid, v.parentId = some pid →
      (∃ p ∈ sourceRowsOf cm fs rows, p.id = pid) →
      ∃ p ∈ computeVisibleRows cm fs rows collapsed, p.id = pid := by
  intro v hv pid hpid ⟨p, hpmem, hpids⟩
  have hvsrc : v ∈ sourceRowsOf cm fs rows := (List.mem_filter.mp hv).1
  have hvvis : (visitDfs cm collapsed
      (rows.length + (sourceRowsOf cm fs rows).length
        + (visibleRoots (sourceRowsOf cm fs rows)).length) []
      ((visibleRoots (sourceRowsOf cm fs rows)).map (·.id))).contains v.id = true :=
    (List.mem_filter.mp hv).2
  have hvrows : v ∈ rows := sourceRowsOf_subset cm fs rows v hvsrc
  have hprows : p ∈ rows := sourceRowsOf_subset cm fs rows p hpmem
  have hpne : pid ≠ "" := hpids ▸ hne p hprows
  -- soundness of the walk at v.id
  have hsound := visitDfs_sound cm collapsed
    ((visibleRoots (sourceRowsOf cm fs rows)).map (·.id))
    (rows.length + (sourceRowsOf cm fs rows).length
      + (visibleRoots (sourceRowsOf cm fs rows)).length)
    [] ((visibleRoots (sourceRowsOf cm fs rows)).map (·.id))
    (by intro i hi; cases hi) (fun i hi => Or.inl hi)
    v.id (List.mem_of_elem_eq_true hvvis)
  rcases hsound with hroot | ⟨u, hu, hucoll, huchild⟩
  · -- v would be a root, impossible: its parent id is present in the source set
    obtain ⟨t, htroots, htid⟩ := List.mem_map.mp hroot
    have htmem : t ∈ sourceRowsOf cm fs rows := (List.mem_filter.mp htroots).1
    have htv : t = v :=
      eq_of_mem_of_id_eq hnodup (sourceRowsOf_subset cm fs rows t htmem) hvrows htid
    subst htv
    have htpred := (List.mem_filter.mp htroots).2
    rw [hpid] at htpred
    simp only [beq_iff_eq, Bool.or_eq_true, Bool.not_eq_true'] at htpred
    rcases htpred with h | h
    · exact absurd h hpne
    · rw [List.any_eq_false] at h
      exact absurd hpids (by simpa using h p hpmem)
  · -- v was reached from its parent u, which is therefore visible
    have hup : v.parentId = some u := hcm u v.id huchild v hvrows rfl
    have hupid : u = pid := by
      rw [hpid] at hup
      exact (Option.some_injective _ hup).symm
    refine ⟨p, List.mem_filter.mpr ⟨hpmem, ?_⟩, hpids⟩
    rw [hpids, ← hupid]
    exact List.elem_eq_true_of_mem hu

/-- Witness for C2: on the example rows with search `"D"` and `B`
collapsed, the visible row `B` has parent `A` in the source set, and
`A` is indeed visible. -/
theorem computeVisibleRows_connected_witness :
    ∃ p ∈ computeVisibleRows (childrenMapOf exRows) exSearchD exRows {"B"},
      p.id = "A" :=
  computeVisibleRows_connected (childrenMapOf exRows) exSearchD exRows {"B"}
    (by decide) (by decide)
    (childrenMapOf_sound exRows (by decide))
    ⟨"B", some "A", "B", none⟩ (by decide) "A" rfl
    ⟨⟨"A", none, "A", none⟩, by decide, rfl⟩

/-! ## C3: synthetic root transparency

Helper lemmas characterising the working list of `computeLayout` when
a synthetic root is inserted, and the structure of the preorder
traversal of the stratified tree. -/

/-- Reparenting preserves the id. -/
theorem repRow_id (r : NodeRow) : (repRow r).id = r.id := rfl

/-- Reparenting twice is reparenting once. -/
theorem repRow_repRow (r : NodeRow) : repRow (repRow r) = repRow r := rfl

/-- A pointwise-reparenting map is the identity when the id is absent. -/
theorem map_rep_of_not_mem (ws : List NodeRow) (t : String)
    (h : t ∉ ws.map (·.id)) :
    ws.map (fun w => if w.id = t then repRow w else w) = ws := by
  induction ws with
  | nil => rfl
  | cons w wst ih =>
    simp only [List.map_cons, List.mem_cons] at h
    push_neg at h
    rw [List.map_cons, if_neg (fun he => h.1 he.symm), ih h.2]

/-- On a duplicate-free list, `findIndex`-based reparenting is the
pointwise map that reparents the matching row. -/
theorem reparentFirst_eq_map (l : List NodeRow) (t : String)
    (h : (l.map (·.id)).Nodup) :
    reparentFirst l t = l.map (fun w => if w.id = t then repRow w else w) := by
  induction l with
  | nil => rfl
  | cons w ws ih =>
    rw [List.map_cons, List.nodup_cons] at h
    by_cases hw : w.id = t
    · rw [List.map_cons, if_pos hw]
      unfold reparentFirst
      rw [if_pos hw, map_rep_of_not_mem ws t (hw ▸ h.1)]
    · rw [List.map_cons, if_neg hw]
      unfold reparentFirst
      rw [if_neg hw, ih h.2]

/-- Any id-preserving pointwise map preserves the id list. -/
theorem map_ids_of_id_preserving (l : List NodeRow) (f : NodeRow → NodeRow)
    (hf : ∀ w, (f w).id = w.id) :
    (l.map f).map (·.id) = l.map (·.id) := by
  rw [List.map_map]
  exact List.map_congr_left (fun w _ => hf w)

/-- The whole reparenting fold, as a pointwise map over a
duplicate-free working list. -/
theorem foldl_reparentFirst_eq_map (todo : List String) :
    ∀ l : List NodeRow, (l.map (·.id)).Nodup →
      todo.foldl reparentFirst l
        = l.map (fun w => if w.id ∈ todo then repRow w else w) := by
  induction todo with
  | nil =>
    intro l _
    simp
  | cons t ts ih =>
    intro l hl
    rw [List.foldl_cons, reparentFirst_eq_map l t hl]
    have hl' : ((l.map (fun w => if w.id = t then repRow w else w)).map (·.id)).Nodup := by
      rw [map_ids_of_id_preserving l _ (fun w => by
        by_cases hw : w.id = t <;> simp [hw, repRow_id])]
      exact hl
    rw [ih _ hl', List.map_map]
    refine List.map_congr_left (fun w _ => ?_)
    simp only [Function.comp_apply]
    by_cases hw : w.id = t
    · rw [if_pos hw]
      have hm : w.id ∈ t :: ts := by rw [hw]; exact List.mem_cons_self t ts
      rw [if_pos hm]
      by_cases hts : t ∈ ts
      · rw [if_pos (show (repRow w).id ∈ ts by rw [repRow_id, hw]; exact hts),
          repRow_repRow]
      · rw [if_neg (show (repRow w).id ∉ ts by rw [repRow_id, hw]; exact hts)]
    · rw [if_neg hw]
      by_cases hts : w.id ∈ ts
      · rw [if_pos hts, if_pos (List.mem_cons_of_mem t hts)]
      · rw [if_neg hts, if_neg (fun hmem => (List.mem_cons.mp hmem).elim hw hts)]

/-- `workingOf` in closed form when the synthetic root is inserted:
every root is reparented, every other row is untouched, and the
synthetic root sits at the end. -/
theorem workingOf_eq_of_multi (rows : List NodeRow)
    (hnodup : (rows.map (·.id)).Nodup)
    (hsyn : ∀ r ∈ rows, r.id ≠ syntheticRootId)
    (hmulti : (codeRoots rows).length ≠ 1) :
    workingOf rows = mappedRows rows ++ [syntheticRow] := by
  unfold workingOf
  rw [if_neg hmulti]
  have hfold : (codeRoots rows).foldl (fun acc r => reparentFirst acc r.id)
      (rows ++ [syntheticRow])
      = ((codeRoots rows).map (·.id)).foldl reparentFirst (rows ++ [syntheticRow]) :=
    (List.foldl_map _ _ _ _).symm
  rw [hfold]
  have hnodup2 : (((rows ++ [syntheticRow]).map (·.id))).Nodup := by
    rw [List.map_append]
    rw [List.nodup_append]
    refine ⟨hnodup, by simp, ?_⟩
    intro a ha hb
    simp only [List.map_cons, List.map_nil, List.mem_singleton, syntheticRow] at hb
    obtain ⟨r, hr, hrid⟩ := List.mem_map.mp ha
    exact hsyn r hr (hrid.trans hb)
  rw [foldl_reparentFirst_eq_map _ _ hnodup2, List.map_append]
  have hsynmap : ([syntheticRow].map
      (fun w => if w.id ∈ (codeRoots rows).map (·.id) then repRow w else w))
      = [syntheticRow] := by
    simp only [List.map_cons, List.map_nil]
    rw [if_neg]
    intro hmem
    obtain ⟨r, hr, hrid⟩ := List.mem_map.mp hmem
    exact hsyn r (List.mem_filter.mp hr).1 hrid
  rw [hsynmap]
  unfold mappedRows
  congr 1
  refine List.map_congr_left (fun w hw => ?_)
  by_cases hroot : isRootRow rows w = true
  · rw [if_pos, if_pos hroot]
    exact List.mem_map.mpr ⟨w, List.mem_filter.mpr ⟨hw, hroot⟩, rfl⟩
  · rw [if_neg, if_neg hroot]
    intro hmem
    obtain ⟨t, ht, htid⟩ := List.mem_map.mp hmem
    have htw : t = w :=
      eq_of_mem_of_id_eq hnodup (List.mem_filter.mp ht).1 hw htid
    exact hroot (htw ▸ (List.mem_filter.mp ht).2)

/-- Members of the mapped rows come from the input rows (reparented
when roots), keeping their id. -/
theorem mem_mappedRows {rows : List NodeRow} {w' : NodeRow}
    (h : w' ∈ mappedRows rows) :
    ∃ w ∈ rows, w' = (if isRootRow rows w = true then repRow w else w)
      ∧ w'.id = w.id := by
  obtain ⟨w, hw, hwe⟩ := List.mem_map.mp h
  refine ⟨w, hw, hwe.symm, ?_⟩
  rw [← hwe]
  by_cases hroot : isRootRow rows w = true
  · rw [if_pos hroot, repRow_id]
  · rw [if_neg hroot]

/-- A non-root row has a non-empty `parentId` resolving inside the rows. -/
theorem isRootRow_false_parent {rows : List NodeRow} {w : NodeRow}
    (h : isRootRow rows w = false) :
    ∃ p, w.parentId = some p ∧ p ≠ ""
      ∧ (rows.any (fun x => x.id == p)) = true := by
  revert h
  unfold isRootRow
  match hp : w.parentId with
  | none => intro h; cases h
  | some p =>
    intro h
    simp only [Bool.or_eq_false_iff, Bool.not_eq_false] at h
    exact ⟨p, rfl, by simpa using h.1, by simpa using h.2⟩

/-- Every mapped row has a truthy `parentId`. -/
theorem mappedRows_parent_truthy {rows : List NodeRow} {w' : NodeRow}
    (h : w' ∈ mappedRows rows) : truthy w'.parentId = true := by
  obtain ⟨w, _, hwe, _⟩ := mem_mappedRows h
  by_cases hroot : isRootRow rows w = true
  · rw [hwe, if_pos hroot]
    rfl
  · rw [hwe, if_neg hroot]
    obtain ⟨p, hp, hpne, _⟩ := isRootRow_false_parent (Bool.eq_false_iff.mpr hroot)
    rw [hp]
    simpa [truthy] using hpne

/-- The stratify roots of the multi-root working list: exactly the
synthetic root. -/
theorem stratRoots_workingOf (rows : List NodeRow)
    (hnodup : (rows.map (·.id)).Nodup)
    (hsyn : ∀ r ∈ rows, r.id ≠ syntheticRootId)
    (hmulti : (codeRoots rows).length ≠ 1) :
    stratRoots (workingOf rows) = [syntheticRow] := by
  rw [workingOf_eq_of_multi rows hnodup hsyn hmulti]
  unfold stratRoots
  rw [List.filter_append]
  have h1 : (mappedRows rows).filter (fun r => !(truthy r.parentId)) = [] := by
    rw [List.filter_eq_nil_iff]
    intro w' hw'
    rw [mappedRows_parent_truthy hw']
    decide
  rw [h1]
  rfl

/-- A duplicate-free id list never triggers the duplicate check. -/
theorem idsDup_false_of_nodup {l : List String} (h : l.Nodup) :
    idsDup l = false := by
  induction l with
  | nil => rfl
  | cons i is ih =>
    rw [List.nodup_cons] at h
    unfold idsDup
    rw [ih h.2]
    have : (is.any fun x => x == i) = false := by
      rw [List.any_eq_false]
      intro x hx
      simp only [beq_iff_eq]
      intro he
      exact h.1 (he ▸ hx)
    rw [this]
    simp

/-- The multi-root working list passes the duplicate check. -/
theorem hasDupIds_workingOf_false (rows : List NodeRow)
    (hnodup : (rows.map (·.id)).Nodup)
    (hsyn : ∀ r ∈ rows, r.id ≠ syntheticRootId)
    (hmulti : (codeRoots rows).length ≠ 1) :
    hasDupIds (workingOf rows) = false := by
  rw [hasDupIds_eq_idsDup]
  apply idsDup_false_of_nodup
  rw [workingOf_eq_of_multi rows hnodup hsyn hmulti, List.map_append]
  have hids : (mappedRows rows).map (·.id) = rows.map (·.id) :=
    map_ids_of_id_preserving rows _ (fun w => by
      by_cases hw : isRootRow rows w = true <;> simp [hw, repRow_id])
  rw [hids, List.nodup_append]
  refine ⟨hnodup, by simp, ?_⟩
  intro a ha hb
  simp only [List.map_cons, List.map_nil, List.mem_singleton, syntheticRow] at hb
  obtain ⟨r, hr, hrid⟩ := List.mem_map.mp ha
  exact hsyn r hr (hrid.trans hb)

/-- Membership facts of `childRows`. -/
theorem childRows_parent {W : List NodeRow} {pid : String} {x : NodeRow}
    (hx : x ∈ childRows W pid) :
    x ∈ W ∧ ∃ p, x.parentId = some p ∧ p ≠ "" ∧ p = pid := by
  have hm := List.mem_filter.mp hx
  refine ⟨hm.1, ?_⟩
  have hp := hm.2
  revert hp
  match hxp : x.parentId with
  | none => intro hp; cases hp
  | some p =>
    intro hp
    simp only [Bool.and_eq_true, beq_iff_eq] at hp
    exact ⟨p, rfl, by simpa using hp.1, hp.2⟩

/-- The converse: a working row whose non-empty parent is `pid` is a
child of `pid`. -/
theorem mem_childRows {W : List NodeRow} {pid : String} {x : NodeRow}
    (hxW : x ∈ W) {p : String} (hp : x.parentId = some p) (hne : p ≠ "")
    (hpe : p = pid) : x ∈ childRows W pid := by
  subst hpe
  refine List.mem_filter.mpr ⟨hxW, ?_⟩
  rw [hp]
  simp [hne]

/-- The root is the head of its own preorder traversal. -/
theorem preorderRows_self (W : List NodeRow) (fuel : Nat) (r : NodeRow) :
    (r, 0) ∈ preorderRows W fuel r := by
  cases fuel <;> simp [preorderRows]

/-- Lifting a preorder member one level up through a child edge. -/
theorem preorderRows_mem_lift {W : List NodeRow} {fuel : Nat} {r c : NodeRow}
    {q : NodeRow} {d : Nat} (hc : c ∈ childRows W r.id)
    (hq : (q, d) ∈ preorderRows W fuel c) :
    (q, d + 1) ∈ preorderRows W (fuel + 1) r := by
  simp only [preorderRows]
  refine List.mem_cons_of_mem _ ?_
  rw [List.mem_flatten]
  refine ⟨(preorderRows W fuel c).map (fun pd => (pd.1, pd.2 + 1)), ?_, ?_⟩
  · exact List.mem_map.mpr ⟨c, hc, rfl⟩
  · exact List.mem_map.mpr ⟨(q, d), hq, rfl⟩

/-- Structure of preorder members: the root at depth 0, or a child of
some member one level above. -/
theorem preorderRows_mem_structure (W : List NodeRow) :
    ∀ (fuel : Nat) (r : NodeRow) (pd : NodeRow × Nat),
      pd ∈ preorderRows W fuel r →
      (pd = (r, 0)) ∨
      (∃ q d', (q, d') ∈ preorderRows W fuel r ∧ pd.2 = d' + 1
        ∧ pd.1 ∈ childRows W q.id) := by
  intro fuel
  induction fuel with
  | zero =>
    intro r pd hpd
    simp only [preorderRows, List.mem_singleton] at hpd
    exact Or.inl hpd
  | succ n ih =>
    intro r pd hpd
    simp only [preorderRows] at hpd
    rcases List.mem_cons.mp hpd with hhead | htail
    · exact Or.inl hhead
    · rw [List.mem_flatten] at htail
      obtain ⟨sub, hsub, hpdsub⟩ := htail
      obtain ⟨c, hc, hce⟩ := List.mem_map.mp hsub
      rw [← hce] at hpdsub
      obtain ⟨x, hx, hxe⟩ := List.mem_map.mp hpdsub
      rcases ih c x hx with hx0 | ⟨q, d', hq, hd, hchild⟩
      · refine Or.inr ⟨r, 0, preorderRows_self W (n + 1) r, ?_, ?_⟩
        · rw [← hxe, hx0]
        · rw [← hxe]
          simpa [hx0] using hc
      · refine Or.inr ⟨q, d' + 1, preorderRows_mem_lift hc hq, ?_, ?_⟩
        · rw [← hxe]
          simp [hd]
        · rw [← hxe]
          exact hchild

/-- Preorder members are the root or rows of the working list. -/
theorem preorderRows_mem_W {W : List NodeRow} {fuel : Nat} {r : NodeRow}
    {pd : NodeRow × Nat} (hpd : pd ∈ preorderRows W fuel r) :
    pd.1 = r ∨ pd.1 ∈ W := by
  rcases preorderRows_mem_structure W fuel r pd hpd with h | ⟨q, d', _, _, hchild⟩
  · exact Or.inl (by rw [h])
  · exact Or.inr (childRows_parent hchild).1

/-- Every link target is a working row with a truthy parent pointer. -/
theorem linkPairs_target (W : List NodeRow) :
    ∀ (fuel : Nat) (r : NodeRow) (pr : String × String),
      pr ∈ linkPairs W fuel r →
      ∃ c ∈ W, c.id = pr.2 ∧ ∃ p, c.parentId = some p ∧ p ≠ "" := by
  intro fuel
  induction fuel with
  | zero => intro r pr hpr; cases hpr
  | succ n ih =>
    intro r pr hpr
    simp only [linkPairs] at hpr
    rcases List.mem_append.mp hpr with hdir | hrec
    · obtain ⟨c, hc, hce⟩ := List.mem_map.mp hdir
      obtain ⟨hcW, p, hp, hpne, _⟩ := childRows_parent hc
      exact ⟨c, hcW, by rw [← hce], p, hp, hpne⟩
    · rw [List.mem_flatten] at hrec
      obtain ⟨sub, hsub, hprsub⟩ := hrec
      obtain ⟨c, _, hce⟩ := List.mem_map.mp hsub
      rw [← hce] at hprsub
      exact ih c pr hprsub

/-- A preorder member whose row has no parent pointer is the traversal
root at depth 0. -/
theorem preorder_root_of_parent_none {W : List NodeRow} {fuel : Nat}
    {r : NodeRow} {pd : NodeRow × Nat} (hpd : pd ∈ preorderRows W fuel r)
    (hp : pd.1.parentId = none) : pd = (r, 0) := by
  rcases preorderRows_mem_structure W fuel r pd hpd with h | ⟨q, d', _, _, hchild⟩
  · exact h
  · obtain ⟨_, p, hpp, _, _⟩ := childRows_parent hchild
    rw [hp] at hpp
    cases hpp

/-- Every code root, reparented, sits at d3 depth 1 in the stratified
multi-root tree. -/
theorem roots_in_preorder (rows : List NodeRow)
    (hnodup : (rows.map (·.id)).Nodup)
    (hsyn : ∀ r ∈ rows, r.id ≠ syntheticRootId)
    (hm1 : (codeRoots rows).length ≠ 1) :
    ∀ r ∈ codeRoots rows,
      (repRow r, 1) ∈ preorderRows (workingOf rows)
        (workingOf rows).length syntheticRow := by
  intro r hr
  have hW := workingOf_eq_of_multi rows hnodup hsyn hm1
  have hlenW : (workingOf rows).length = (mappedRows rows).length + 1 := by
    rw [hW]
    simp
  have hrep_mem : repRow r ∈ mappedRows rows :=
    List.mem_map.mpr ⟨r, (List.mem_filter.mp hr).1,
      by rw [if_pos (List.mem_filter.mp hr).2]⟩
  have hrepW : repRow r ∈ workingOf rows := by
    rw [hW]
    exact List.mem_append_left _ hrep_mem
  have hchild : repRow r ∈ childRows (workingOf rows) syntheticRow.id :=
    mem_childRows hrepW (p := syntheticRootId) rfl (by decide) rfl
  rw [hlenW]
  exact preorderRows_mem_lift hchild
    (preorderRows_self (workingOf rows) (mappedRows rows).length (repRow r))

/-- Depth consistency of the multi-root preorder: every non-synthetic
member is a reparented code root at d3 depth 1, or an untouched input
row one level below its parent member. -/
theorem preorder_depth_consistency (rows : List NodeRow)
    (hnodup : (rows.map (·.id)).Nodup)
    (hsyn : ∀ r ∈ rows, r.id ≠ syntheticRootId)
    (hm1 : (codeRoots rows).length ≠ 1) :
    ∀ pd ∈ preorderRows (workingOf rows) (workingOf rows).length syntheticRow,
      pd.1.id ≠ syntheticRootId →
      (pd.1.id ∈ (codeRoots rows).map (·.id) ∧ pd.2 = 1) ∨
      (∃ rr ∈ rows, rr.id = pd.1.id ∧ ∃ pid, rr.parentId = some pid ∧
        ∃ qd' : NodeRow × Nat,
          qd' ∈ preorderRows (workingOf rows) (workingOf rows).length syntheticRow
          ∧ qd'.1.id = pid ∧ qd'.1.id ≠ syntheticRootId ∧ pd.2 = qd'.2 + 1) := by
  intro pd hpd hne
  have hW := workingOf_eq_of_multi rows hnodup hsyn hm1
  rcases preorderRows_mem_structure _ _ _ pd hpd with h0 | ⟨q, d', hq, hd, hchild⟩
  · exact absurd (show pd.1.id = syntheticRootId by rw [h0]; rfl) hne
  · obtain ⟨hpdW, p, hpp, hpne, hppid⟩ := childRows_parent hchild
    have hpd1 : pd.1 ∈ mappedRows rows := by
      rw [hW] at hpdW
      rcases List.mem_append.mp hpdW with h | h
      · exact h
      · exact absurd (show pd.1.id = syntheticRootId by
          rw [List.mem_singleton.mp h]; rfl) hne
    obtain ⟨w, hw_rows, hwe, hwid⟩ := mem_mappedRows hpd1
    by_cases hqroot : q.id = syntheticRootId
    · -- the parent member is the synthetic root: pd.1 is a real root
      have hq_syn : q = syntheticRow := by
        rcases preorderRows_mem_W hq with h | h
        · exact h
        · rw [hW] at h
          rcases List.mem_append.mp h with h | h
          · exfalso
            obtain ⟨w', hw', _, hwid'⟩ := mem_mappedRows h
            exact hsyn w' hw' (hwid'.symm.trans hqroot)
          · exact List.mem_singleton.mp h
      have hd0 : d' = 0 := by
        have h := preorder_root_of_parent_none hq (by rw [hq_syn]; rfl)
        exact (Prod.mk.injEq _ _ _ _).mp h |>.2
      by_cases hwroot : isRootRow rows w = true
      · left
        refine ⟨?_, by rw [hd, hd0]⟩
        rw [hwid]
        exact List.mem_map.mpr ⟨w, List.mem_filter.mpr ⟨hw_rows, hwroot⟩, rfl⟩
      · exfalso
        have hpdw : pd.1 = w := by rw [hwe, if_neg hwroot]
        obtain ⟨pw, hpw, _, hpwany⟩ :=
          isRootRow_false_parent (Bool.eq_false_iff.mpr hwroot)
        rw [hpdw, hpw] at hpp
        have hpwp : pw = p := Option.some.inj hpp
        rw [List.any_eq_true] at hpwany
        obtain ⟨x, hx, hxe⟩ := hpwany
        have hxid : x.id = pw := by simpa using hxe
        exact hsyn x hx (by rw [hxid, hpwp, hppid, hqroot])
    · -- the parent member is a real node: pd.1 is an untouched row
      right
      have hwroot : isRootRow rows w = false := by
        by_contra hc
        have hc' : isRootRow rows w = true := by
          simpa using hc
        have hpdw : pd.1 = repRow w := by rw [hwe, if_pos hc']
        have : pd.1.parentId = some syntheticRootId := by rw [hpdw]; rfl
        rw [this] at hpp
        exact hqroot (hppid ▸ (Option.some.inj hpp).symm ▸ rfl)
      have hpdw : pd.1 = w := by
        rw [hwe, if_neg (by rw [hwroot]; exact Bool.false_ne_true)]
      refine ⟨w, hw_rows, hwid.symm, q.id, ?_, (q, d'), hq, rfl, hqroot, hd⟩
      rw [← hpdw, hpp, hppid]

/-- C3: for every input row set (unique ids, none equal to the
sentinel) with two or more roots, whenever layout succeeds the output
node, link and table lists never contain the synthetic root id, every
real root appears with reported depth 0, and all reported depths are
the real tree depth: a root node reports 0 and every other node
reports one more than the node its row's `parentId` designates. -/
theorem synthetic_root_transparency (rows : List NodeRow)
    (hnodup : (rows.map (·.id)).Nodup)
    (hsyn : ∀ r ∈ rows, r.id ≠ syntheticRootId)
    (hmulti : 2 ≤ (codeRoots rows).length)
    (hok : (computeLayout rows).ok = true) :
    (∀ n ∈ (computeLayout rows).nodes, n.id ≠ syntheticRootId) ∧
    (∀ n ∈ (computeLayout rows).tableRows, n.id ≠ syntheticRootId) ∧
    (∀ l ∈ (computeLayout rows).links,
      l.1 ≠ syntheticRootId ∧ l.2 ≠ syntheticRootId) ∧
    (∀ r ∈ codeRoots rows,
      ∃ n ∈ (computeLayout rows).nodes, n.id = r.id ∧ n.depth = 0) ∧
    (∀ n ∈ (computeLayout rows).nodes,
      (n.id ∈ (codeRoots rows).map (·.id) ∧ n.depth = 0) ∨
      (∃ rr ∈ rows, rr.id = n.id ∧ ∃ pid, rr.parentId = some pid ∧
        ∃ m ∈ (computeLayout rows).nodes, m.id = pid ∧ n.depth = m.depth + 1)) := by
  have hm1 : (codeRoots rows).length ≠ 1 := by omega
  have hW : workingOf rows = mappedRows rows ++ [syntheticRow] :=
    workingOf_eq_of_multi rows hnodup hsyn hm1
  have hdup : hasDupIds (workingOf rows) = false :=
    hasDupIds_workingOf_false rows hnodup hsyn hm1
  have hroots : stratRoots (workingOf rows) = [syntheticRow] :=
    stratRoots_workingOf rows hnodup hsyn hm1
  by_cases hmiss : hasMissing (workingOf rows) = true
  · exfalso
    have hfail : computeLayout rows = ⟨false, [], [], []⟩ := by
      unfold computeLayout
      have hst : stratify (workingOf rows) = .error .missing := by
        unfold stratify
        simp [hdup, hmiss]
      rw [hst]
    rw [hfail] at hok
    exact Bool.noConfusion hok
  · have hmiss' : hasMissing (workingOf rows) = false := by
      simpa using hmiss
    by_cases hlen : (preorderRows (workingOf rows) (workingOf rows).length
        syntheticRow).length = (workingOf rows).length
    · have hst : stratify (workingOf rows)
          = .ok (syntheticRow, preorderRows (workingOf rows)
              (workingOf rows).length syntheticRow) := by
        unfold stratify
        rw [hroots]
        simp [hdup, hmiss', hlen]
      have hform : computeLayout rows = ⟨true,
          ((preorderRows (workingOf rows) (workingOf rows).length syntheticRow).map
            (fun pd => mkLayoutNode pd.1 pd.2 1)).filter
              (fun n => n.id ≠ syntheticRootId),
          (linkPairs (workingOf rows) (workingOf rows).length syntheticRow).filter
            (fun l => l.1 ≠ syntheticRootId),
          ((preorderRows (workingOf rows) (workingOf rows).length syntheticRow).map
            (fun pd => mkLayoutNode pd.1 pd.2 1)).filter
              (fun n => n.id ≠ syntheticRootId)⟩ := by
        unfold computeLayout
        rw [hst]
        simp [hm1]
      rw [hform]
      refine ⟨?_, ?_, ?_, ?_, ?_⟩
      · intro n hn
        exact of_decide_eq_true (List.mem_filter.mp hn).2
      · intro n hn
        exact of_decide_eq_true (List.mem_filter.mp hn).2
      · intro l hl
        refine ⟨of_decide_eq_true (List.mem_filter.mp hl).2, ?_⟩
        obtain ⟨c, hcW, hcid, p, hp, hpne⟩ :=
          linkPairs_target (workingOf rows) (workingOf rows).length syntheticRow l
            (List.mem_filter.mp hl).1
        intro h2
        rw [hW] at hcW
        rcases List.mem_append.mp hcW with hc | hc
        · obtain ⟨w', hw', _, hwid'⟩ := mem_mappedRows hc
          exact hsyn w' hw' (hwid'.symm.trans (hcid.trans h2))
        · have hcsyn := List.mem_singleton.mp hc
          rw [hcsyn] at hp
          cases hp
      · intro r hr
        have hmem := roots_in_preorder rows hnodup hsyn hm1 r hr
        have hrid : r.id ≠ syntheticRootId := hsyn r (List.mem_filter.mp hr).1
        refine ⟨mkLayoutNode (repRow r) 1 1, ?_, by simp [mkLayoutNode, repRow_id], ?_⟩
        · refine List.mem_filter.mpr ⟨List.mem_map.mpr ⟨(repRow r, 1), hmem, rfl⟩, ?_⟩
          exact decide_eq_true (by simpa [mkLayoutNode, repRow_id] using hrid)
        · simp [mkLayoutNode]
      · intro n hn
        obtain ⟨pd, hpdF, hmk⟩ := List.mem_map.mp (List.mem_filter.mp hn).1
        have hnid : n.id ≠ syntheticRootId :=
          of_decide_eq_true (List.mem_filter.mp hn).2
        have hpdid : pd.1.id ≠ syntheticRootId := by
          rw [← hmk] at hnid
          exact hnid
        rcases preorder_depth_consistency rows hnodup hsyn hm1 pd hpdF hpdid with
          ⟨hmem, hd1⟩ | ⟨rr, hrr, hrid, pid, hrp, qd', hqF, hqid, hqne, hdd⟩
        · left
          constructor
          · rw [← hmk]
            exact hmem
          · rw [← hmk, hd1]
            simp [mkLayoutNode]
        · right
          refine ⟨rr, hrr, by rw [← hmk]; exact hrid, pid, hrp,
            mkLayoutNode qd'.1 qd'.2 1, ?_, ?_, ?_⟩
          · refine List.mem_filter.mpr ⟨List.mem_map.mpr ⟨qd', hqF, rfl⟩, ?_⟩
            exact decide_eq_true (by simpa [mkLayoutNode] using hqne)
          · simpa [mkLayoutNode] using hqid
          · rw [← hmk, hdd]
            simp [mkLayoutNode]
    · exfalso
      have hfail : computeLayout rows = ⟨false, [], [], []⟩ := by
        unfold computeLayout
        have hst : stratify (workingOf rows) = .error .cycle := by
          unfold stratify
          rw [hroots]
          simp [hdup, hmiss', hlen]
        rw [hst]
      rw [hfail] at hok
      exact Bool.noConfusion hok

/-- Witness for C3 at the spec's two-root example: `A` appears with
depth 0. -/
theorem synthetic_root_transparency_witness :
    ∃ n ∈ (computeLayout [⟨"A", none, "A", none⟩, ⟨"B", none, "B", none⟩]).nodes,
      n.id = "A" ∧ n.depth = 0 :=
  (synthetic_root_transparency [⟨"A", none, "A", none⟩, ⟨"B", none, "B", none⟩]
    (by decide) (by decide) (by decide) (by decide)).2.2.2.1
    ⟨"A", none, "A", none⟩ (by decide)
